import Mathlib

/-!
# RSAecdc: textbook RSA key derivation, cipher and codec (`rsaKeys.go`)

A shallow embedding of `rsaKeys.go`.  Values of type `*big.Int` are Lean integers, a Go
string is its sequence of bytes.  The routines of `math/big` that the program calls
(`GCD`, `ModInverse`, `Exp`, `SetBytes`, `Bytes`) are embedded next to the functions that
call them; a missing result (`nil`, a run-time panic, or a loop that does not come back)
is `none`.

`generatePrimeNumber` draws from `crypto/rand`; its two results are the parameters `p`
and `q` of `generateRsaKeys` and `main` below.
-/

namespace RSAecdc

/-- One byte of a Go string or byte slice. -/
abbrev Byte := Fin 256

/-! ## Key derivation -/

/-- `calculateN`: n = p * q. -/
def calculateN (p q : Int) : Int := p * q

/-- `calculateTotient`: (p-1) * (q-1). -/
def calculateTotient (p q : Int) : Int :=
  let one : Int := 1
  let pMinus1 := p - one
  let qMinus1 := q - one
  pMinus1 * qMinus1

/-- The Euclidean loop of `big.Int.lehmerGCD`, run for at most `fuel` steps.  `A` and `B`
are the two remainders, `Ua` and `Ub` count how many times the input `a` has been
accumulated into `A` and into `B`.  Each step is `euclidUpdate`:
`A, B = B, A mod B` and `Ua, Ub = Ub, Ua - q*Ub` with `q = A / B`.  The result is the
final `(A, Ua)`. -/
def euclidLoop : Nat → Nat → Nat → Int → Int → Nat × Int
  | 0, A, _, Ua, _ => (A, Ua)
  | fuel + 1, A, B, Ua, Ub =>
    if B = 0 then (A, Ua)
    else euclidLoop fuel B (A % B) Ub (Ua - ((A / B : Nat) : Int) * Ub)

/-- `big.Int.lehmerGCD` for non-zero `a`, `b`: the pair `(z, x)` of the gcd of `|a|`, `|b|`
and the cofactor of `a`.  The loop starts from `A = |a|`, `B = |b|`, `Ua = 1`, `Ub = 0`,
swapped when `A < B`; the remainder `B` strictly decreases, so `B` steps are enough. -/
def lehmerGCD (a b : Int) : Int × Int :=
  let A := a.natAbs
  let B := b.natAbs
  let r := if A < B then euclidLoop A B A 0 1 else euclidLoop B A B 1 0
  ((r.1 : Int), if a < 0 then -r.2 else r.2)

/-- `big.Int.GCD(x, nil, a, b)`: the pair `(z, x)` with `z = gcd(a, b) >= 0` and `x` the
cofactor of `a`.  When `a` or `b` is zero, `z` is the absolute value of the other one and
`x` is `0` (for `a = 0`) or the sign of `a`. -/
def bigGCDx (a b : Int) : Int × Int :=
  if a = 0 ∨ b = 0 then
    ((if a = 0 then (b.natAbs : Int) else (a.natAbs : Int)), (if a = 0 then 0 else a.sign))
  else lehmerGCD a b

/-- `big.Int.GCD(nil, nil, a, b)`: only the gcd. -/
def bigGCD (a b : Int) : Int := (bigGCDx a b).1

/-- `big.Int.ModInverse(g, n)`: a negative `n` is negated, a negative `g` is reduced
`mod n` (a division by zero when `n = 0`), then `d, x = GCD(g, n)`; the result is `nil`
unless `d = 1`, and otherwise `x`, plus `n` when `x` is negative. -/
def bigModInverse (g n : Int) : Option Int :=
  let n := if n < 0 then -n else n
  if g < 0 ∧ n = 0 then none
  else
    let g := if g < 0 then g % n else g
    let r := bigGCDx g n
    if r.1 ≠ 1 then none
    else if r.2 < 0 then some (r.2 + n) else some r.2

/-- The loop of `findE`, run for at most `fuel` iterations from the candidate `e`:
return `e` when `gcd(e, totient) = 1`, otherwise go on with `e + 2`. -/
def findELoop (totient : Int) : Nat → Int → Option Int
  | 0, _ => none
  | fuel + 1, e =>
    if bigGCD e totient = 1 then some e else findELoop totient fuel (e + 2)

/-- `findE`: the loop started at `e = 3`.  The source loop has no bound; here it is run
for `|totient|` iterations, which is enough whenever the loop comes back at all
(`findELoop_some_imp_findE`), and `none` stands for a loop that never comes back. -/
def findE (totient : Int) : Option Int := findELoop totient totient.natAbs 3

/-- `modInverse`: `new(big.Int).ModInverse(e, totient)`; `none` is the `nil` result. -/
def modInverse (e totient : Int) : Option Int := bigModInverse e totient

/-- `generateRsaKeys`, given the two results `p`, `q` of `generatePrimeNumber`: the tuple
`(p, q, n, e, d)`.  The whole result is `none` when `findE` does not come back; `d` is
`none` when `modInverse` gives `nil`. -/
def generateRsaKeys (p q : Int) : Option (Int × Int × Int × Int × Option Int) :=
  let n := calculateN p q
  let totient := calculateTotient p q
  match findE totient with
  | none => none
  | some e =>
    let d := modInverse e totient
    some (p, q, n, e, d)

/-! ## Cipher -/

/-- `nat.expNN(x, y, m)`: `x**y mod m`, and `x**y` when `m` is zero. -/
def expNN (x y m : Nat) : Nat :=
  if m = 0 then x ^ y else x ^ y % m

/-- `big.Int.Exp(x, y, m)`: `x**y mod |m|`.  A negative `y` with `m = 0` gives `1`; a
negative `y` with `m != 0` replaces `x` by `ModInverse(x, m)` (`nil` when there is none).
The magnitude is `expNN` of the magnitudes; it is negated when `x` is negative and `y` is
odd, and a negative result is brought into `[0, |m|)` when `m != 0`. -/
def bigExp (x y m : Int) : Option Int :=
  if y < 0 ∧ m = 0 then some 1
  else
    let xWords : Option Nat :=
      if y < 0 then (bigModInverse x m).map Int.natAbs else some x.natAbs
    match xWords with
    | none => none
    | some xWords =>
      let yWords := y.natAbs
      let mWords := m.natAbs
      let zabs := expNN xWords yWords mWords
      let zneg : Bool := decide (zabs ≠ 0) && decide (x < 0) && decide (yWords % 2 = 1)
      if zneg && decide (mWords ≠ 0) then some ((mWords - zabs : Nat) : Int)
      else if zneg then some (-(zabs : Int))
      else some (zabs : Int)

/-- `encrypt`: ciphertext = message^e mod n. -/
def encrypt (message e n : Int) : Option Int := bigExp message e n

/-- `decrypt`: message = ciphertext^d mod n. -/
def decrypt (ciphertext d n : Int) : Option Int := bigExp ciphertext d n

/-! ## Codec -/

/-- `big.Int.SetBytes(buf)`: `buf` read as a big-endian unsigned integer. -/
def setBytes (buf : List Byte) : Nat :=
  buf.foldl (fun z b => z * 256 + b.val) 0

/-- `big.Int.Bytes()` on the magnitude `x`: the big-endian bytes of `x` without leading
zero bytes. -/
def natBytes (x : Nat) : List Byte :=
  if h : x = 0 then []
  else natBytes (x / 256) ++ [⟨x % 256, Nat.mod_lt x (by decide)⟩]
termination_by x
decreasing_by exact Nat.div_lt_self (Nat.pos_of_ne_zero h) (by decide)

/-- `messageToBigInt`: `SetBytes` of the bytes of the message. -/
def messageToBigInt (message : List Byte) : Int := (setBytes message : Int)

/-- `bigIntToMessage`: the string of `messageInt.Bytes()`, the bytes of the absolute
value. -/
def bigIntToMessage (messageInt : Int) : List Byte := natBytes messageInt.natAbs

/-! ## The program -/

/-- The bytes of the string literal `"O VALTER O BYTHQIM"` of `main`. -/
def mainMessage : List Byte :=
  [79, 32, 86, 65, 76, 84, 69, 82, 32, 79, 32, 66, 89, 84, 72, 81, 73, 77]

/-- The body of `main` after the message has been chosen: derive the keys from `p`, `q`,
encode, encrypt, decrypt, decode; the result is the decrypted message that is printed.
A `nil` private exponent makes `decrypt` panic. -/
def mainWith (p q : Int) (message : List Byte) : Option (List Byte) :=
  match generateRsaKeys p q with
  | none => none
  | some (_, _, n, e, d) =>
    let messageInt := messageToBigInt message
    match encrypt messageInt e n with
    | none => none
    | some ciphertext =>
      match d with
      | none => none
      | some d =>
        match decrypt ciphertext d n with
        | none => none
        | some decryptedMessageInt => some (bigIntToMessage decryptedMessageInt)

/-- `main` with its hard-coded message. -/
def main (p q : Int) : Option (List Byte) := mainWith p q mainMessage

/-- The big-endian value of a byte sequence as the spec words it: the sum over the
positions `i` of `b_i * 256^(k-1-i)`, where `k` is the length. -/
def bigEndianSum (bs : List Byte) : Nat :=
  ∑ i : Fin bs.length, (bs.get i).val * 256 ^ (bs.length - 1 - i.val)

/-- Euler's totient of `n` as the spec words it: the number of integers in `[1, n]` that
are coprime to `n`. -/
def eulerTotient (n : Nat) : Nat :=
  ((Finset.Icc 1 n).filter (fun k => Nat.gcd k n = 1)).card

/-! ## The Euclidean loop -/

theorem euclidLoop_fst (fuel : Nat) : ∀ (A B : Nat) (Ua Ub : Int), B ≤ fuel →
    (euclidLoop fuel A B Ua Ub).1 = Nat.gcd A B := by
  induction fuel with
  | zero =>
    intro A B Ua Ub hB
    have hB0 : B = 0 := Nat.le_zero.mp hB
    subst hB0
    simp [euclidLoop]
  | succ fuel ih =>
    intro A B Ua Ub hB
    unfold euclidLoop
    by_cases hB0 : B = 0
    · subst hB0
      simp
    · rw [if_neg hB0]
      have hlt : A % B < B := Nat.mod_lt _ (Nat.pos_of_ne_zero hB0)
      rw [ih B (A % B) _ _ (by omega)]
      rw [Nat.gcd_comm A B, Nat.gcd_rec B A, Nat.gcd_comm]

theorem lehmerGCD_fst (a b : Int) : (lehmerGCD a b).1 = (Int.gcd a b : Int) := by
  unfold lehmerGCD
  simp only
  split
  · rw [euclidLoop_fst _ _ _ _ _ (le_refl _), Nat.gcd_comm]
    rfl
  · rw [euclidLoop_fst _ _ _ _ _ (le_refl _)]
    rfl

theorem bigGCD_eq (a b : Int) : bigGCD a b = (Int.gcd a b : Int) := by
  unfold bigGCD bigGCDx
  by_cases ha : a = 0
  · subst ha
    simp
  · by_cases hb : b = 0
    · subst hb
      simp [ha]
    · rw [if_neg (by tauto)]
      exact lehmerGCD_fst a b

/-! ## The exponent search -/

theorem findELoop_some_iff (phi : Int) (fuel : Nat) : ∀ (e0 e : Int),
    findELoop phi fuel e0 = some e ↔
      ∃ i : Nat, i < fuel ∧ e = e0 + 2 * (i : Int) ∧ Int.gcd (e0 + 2 * (i : Int)) phi = 1 ∧
        ∀ j : Nat, j < i → Int.gcd (e0 + 2 * (j : Int)) phi ≠ 1 := by
  induction fuel with
  | zero =>
    intro e0 e
    simp [findELoop]
  | succ fuel ih =>
    intro e0 e
    have hshift : ∀ k : Nat, e0 + 2 * ((k + 1 : Nat) : Int) = e0 + 2 + 2 * (k : Int) := by
      intro k
      push_cast
      ring
    unfold findELoop
    rw [bigGCD_eq]
    by_cases hg : Int.gcd e0 phi = 1
    · rw [if_pos (by exact_mod_cast hg)]
      constructor
      · intro h
        have he : e0 = e := by simpa using h
        subst he
        exact ⟨0, Nat.succ_pos _, by simp, by simpa using hg, by simp⟩
      · rintro ⟨i, -, he, -, hmin⟩
        rcases Nat.eq_zero_or_pos i with hi | hi
        · subst hi
          simp [he]
        · exact absurd (by simpa using hg) (hmin 0 hi)
    · rw [if_neg (by exact_mod_cast hg), ih]
      constructor
      · rintro ⟨i, hi, he, hgi, hmin⟩
        refine ⟨i + 1, by omega, ?_, ?_, ?_⟩
        · rw [he, hshift]
        · rw [hshift]
          exact hgi
        · intro j hj
          rcases Nat.eq_zero_or_pos j with hj0 | hj0
          · subst hj0
            simpa using hg
          · obtain ⟨k, rfl⟩ := Nat.exists_eq_succ_of_ne_zero (Nat.pos_iff_ne_zero.mp hj0)
            rw [hshift]
            exact hmin k (by omega)
      · rintro ⟨i, hi, he, hgi, hmin⟩
        rcases Nat.eq_zero_or_pos i with hi0 | hi0
        · subst hi0
          exact absurd (by simpa using hgi) hg
        · obtain ⟨k, rfl⟩ := Nat.exists_eq_succ_of_ne_zero (Nat.pos_iff_ne_zero.mp hi0)
          refine ⟨k, by omega, ?_, ?_, ?_⟩
          · rw [he, hshift]
          · rw [← hshift]
            exact hgi
          · intro j hj
            rw [← hshift]
            exact hmin (j + 1) (by omega)

theorem gcd_two_natAbs_add_one (phi : Int) : Int.gcd (2 * (phi.natAbs : Int) + 1) phi = 1 := by
  apply Int.isCoprime_iff_gcd_eq_one.mp
  rcases Int.natAbs_eq phi with h | h
  · exact ⟨1, -2, by linarith⟩
  · exact ⟨1, 2, by linarith⟩

theorem findE_returns (phi : Int) (hphi : phi ≠ 0) : ∃ e, findE phi = some e := by
  have hpos : 0 < phi.natAbs := Int.natAbs_pos.mpr hphi
  have hlast : Int.gcd (3 + 2 * ((phi.natAbs - 1 : Nat) : Int)) phi = 1 := by
    have h1 : (3 : Int) + 2 * ((phi.natAbs - 1 : Nat) : Int) = 2 * (phi.natAbs : Int) + 1 := by
      omega
    rw [h1]
    exact gcd_two_natAbs_add_one phi
  have hex : ∃ i : Nat, i < phi.natAbs ∧ Int.gcd (3 + 2 * (i : Int)) phi = 1 :=
    ⟨phi.natAbs - 1, by omega, hlast⟩
  classical
  have hi := Nat.find_spec hex
  refine ⟨3 + 2 * ((Nat.find hex : Nat) : Int), ?_⟩
  unfold findE
  rw [findELoop_some_iff]
  refine ⟨Nat.find hex, hi.1, rfl, hi.2, ?_⟩
  intro j hj hc
  exact Nat.find_min hex hj ⟨by omega, hc⟩

theorem findELoop_some_imp_findE (phi : Int) (fuel : Nat) (e : Int)
    (h : findELoop phi fuel 3 = some e) : findE phi = some e := by
  rw [findELoop_some_iff] at h
  obtain ⟨i, hi, he, hgi, hmin⟩ := h
  have hphi : phi ≠ 0 := by
    rintro rfl
    have : Int.gcd (3 + 2 * (i : Int)) 0 = (3 + 2 * (i : Int)).natAbs := by simp
    rw [this] at hgi
    omega
  obtain ⟨e1, he1⟩ := findE_returns phi hphi
  have he1c := he1
  unfold findE at he1
  rw [findELoop_some_iff] at he1
  obtain ⟨i1, hi1, he1eq, hgi1, hmin1⟩ := he1
  have hii : i = i1 := by
    rcases Nat.lt_trichotomy i i1 with hlt | heq | hgt
    · exact absurd hgi (hmin1 i hlt)
    · exact heq
    · exact absurd hgi1 (hmin i1 hgt)
  subst hii
  rw [he1c, he, he1eq]

/-! ## The codec -/

theorem setBytes_append_singleton (bs : List Byte) (b : Byte) :
    setBytes (bs ++ [b]) = setBytes bs * 256 + b.val := by
  simp [setBytes, List.foldl_append]

theorem natBytes_zero : natBytes 0 = [] := by
  rw [natBytes]
  simp

theorem natBytes_of_ne_zero (x : Nat) (hx : x ≠ 0) :
    natBytes x = natBytes (x / 256) ++ [⟨x % 256, Nat.mod_lt x (by decide)⟩] := by
  rw [natBytes]
  simp [hx]

theorem setBytes_pos (bs : List Byte) (hne : bs ≠ [])
    (hhead : ∀ b ∈ bs.head?, b ≠ (0 : Byte)) : 0 < setBytes bs := by
  induction bs using List.reverseRecOn with
  | nil => exact absurd rfl hne
  | append_singleton bs b ih =>
    rw [setBytes_append_singleton]
    cases bs with
    | nil =>
      have hb : b ≠ 0 := hhead b (by simp)
      have : b.val ≠ 0 := fun h => hb (Fin.ext h)
      simp [setBytes]
      omega
    | cons c cs =>
      have := ih (by simp) (by simpa using hhead)
      omega

theorem natBytes_setBytes (bs : List Byte) (hhead : ∀ b ∈ bs.head?, b ≠ (0 : Byte)) :
    natBytes (setBytes bs) = bs := by
  induction bs using List.reverseRecOn with
  | nil => simp [setBytes, natBytes_zero]
  | append_singleton bs b ih =>
    have hpos : 0 < setBytes (bs ++ [b]) := setBytes_pos _ (by simp) hhead
    rw [natBytes_of_ne_zero _ (by omega), setBytes_append_singleton]
    have hb : b.val < 256 := b.isLt
    have hdiv : (setBytes bs * 256 + b.val) / 256 = setBytes bs := by omega
    have hmod : (setBytes bs * 256 + b.val) % 256 = b.val := by omega
    have hlast : (⟨(setBytes bs * 256 + b.val) % 256, Nat.mod_lt _ (by decide)⟩ : Byte) = b :=
      Fin.ext hmod
    rw [hlast, hdiv]
    cases bs with
    | nil => simp [setBytes, natBytes_zero]
    | cons c cs =>
      rw [ih (by simpa using hhead)]

theorem foldl_setBytes (bs : List Byte) : ∀ z : Nat,
    bs.foldl (fun z b => z * 256 + b.val) z = z * 256 ^ bs.length + setBytes bs := by
  induction bs with
  | nil => intro z; simp [setBytes]
  | cons b bs ih =>
    intro z
    simp only [setBytes, List.foldl_cons, List.length_cons]
    rw [ih (z * 256 + b.val), ih (0 * 256 + b.val)]
    ring

theorem setBytes_cons (b : Byte) (bs : List Byte) :
    setBytes (b :: bs) = b.val * 256 ^ bs.length + setBytes bs := by
  have h := foldl_setBytes bs (0 * 256 + b.val)
  simp only [setBytes, List.foldl_cons] at h ⊢
  rw [h]
  ring

theorem setBytes_lt (bs : List Byte) : setBytes bs < 256 ^ bs.length := by
  induction bs with
  | nil => simp [setBytes]
  | cons b bs ih =>
    rw [setBytes_cons, List.length_cons, pow_succ]
    have hb : b.val < 256 := b.isLt
    have h1 : b.val * 256 ^ bs.length ≤ 255 * 256 ^ bs.length :=
      Nat.mul_le_mul_right _ (by omega)
    omega

theorem setBytes_eq_bigEndianSum (bs : List Byte) : setBytes bs = bigEndianSum bs := by
  induction bs with
  | nil => simp [setBytes, bigEndianSum]
  | cons b bs ih =>
    rw [setBytes_cons, ih]
    unfold bigEndianSum
    simp only [List.length_cons]
    rw [Fin.sum_univ_succ]
    refine congrArg₂ (fun x y : Nat => x + y) ?_ ?_
    · simp
    · apply Finset.sum_congr rfl
      intro i _
      have hexp : bs.length + 1 - 1 - (i.val + 1) = bs.length - 1 - i.val := by omega
      have hget : (b :: bs).get i.succ = bs.get i := rfl
      rw [hget, Fin.val_succ, hexp]

/-! ## The cofactor of the Euclidean loop -/

theorem euclidLoop_cofactor (a n : Nat) (hn : 0 < n) (fuel : Nat) :
    ∀ (A B : Nat) (Ua Ub : Int) (u v : Nat), B ≤ fuel → 0 < A →
      ((Ua = (u : Int) ∧ Ub = -(v : Int)) ∨ (Ua = -(u : Int) ∧ Ub = (v : Int))) →
      A * v + B * u = n → (B < A ∨ u ≠ 0) → (0 < B ∨ u < n) →
      (A : Int) ≡ Ua * (a : Int) [ZMOD (n : Int)] →
      (B : Int) ≡ Ub * (a : Int) [ZMOD (n : Int)] →
      (((euclidLoop fuel A B Ua Ub).1 : Int) ≡
          (euclidLoop fuel A B Ua Ub).2 * (a : Int) [ZMOD (n : Int)]) ∧
        -(n : Int) < (euclidLoop fuel A B Ua Ub).2 ∧
        (euclidLoop fuel A B Ua Ub).2 < (n : Int) := by
  induction fuel with
  | zero =>
    intro A B Ua Ub u v hB hA hsign hsum hstrict hbound hA' hB'
    have hB0 : B = 0 := Nat.le_zero.mp hB
    subst hB0
    simp only [euclidLoop]
    refine ⟨hA', ?_, ?_⟩ <;> rcases hsign with ⟨h1, -⟩ | ⟨h1, -⟩ <;> omega
  | succ fuel ih =>
    intro A B Ua Ub u v hB hA hsign hsum hstrict hbound hA' hB'
    unfold euclidLoop
    by_cases hB0 : B = 0
    · subst hB0
      simp only [if_true]
      refine ⟨hA', ?_, ?_⟩ <;> rcases hsign with ⟨h1, -⟩ | ⟨h1, -⟩ <;> omega
    · rw [if_neg hB0]
      have hBpos : 0 < B := Nat.pos_of_ne_zero hB0
      have hlt : A % B < B := Nat.mod_lt _ hBpos
      have hdm : B * (A / B) + A % B = A := Nat.div_add_mod A B
      have hv : v < n := by
        have h1 : v ≤ A * v := Nat.le_mul_of_pos_left v hA
        rcases hstrict with h | h
        · have h2 : 2 * v ≤ A * v := Nat.mul_le_mul_right v (by omega)
          omega
        · have h2 : 0 < B * u := Nat.mul_pos hBpos (Nat.pos_of_ne_zero h)
          omega
      have hsum' : B * (u + A / B * v) + A % B * v = n := by
        have : B * (u + A / B * v) + A % B * v = (B * (A / B) + A % B) * v + B * u := by ring
        rw [this, hdm]
        exact hsum
      have hmodcast : ((A % B : Nat) : Int) = (A : Int) - ((A / B : Nat) : Int) * (B : Int) := by
        have : ((B * (A / B) + A % B : Nat) : Int) = (A : Int) := by rw [hdm]
        push_cast at this
        push_cast
        linarith
      have hB'' : ((A % B : Nat) : Int) ≡ (Ua - ((A / B : Nat) : Int) * Ub) * (a : Int)
          [ZMOD (n : Int)] := by
        rw [hmodcast]
        have h1 := Int.ModEq.sub hA' (Int.ModEq.mul_left ((A / B : Nat) : Int) hB')
        have h2 : Ua * (a : Int) - ((A / B : Nat) : Int) * (Ub * (a : Int)) =
            (Ua - ((A / B : Nat) : Int) * Ub) * (a : Int) := by ring
        rw [h2] at h1
        exact h1
      refine ih B (A % B) Ub (Ua - ((A / B : Nat) : Int) * Ub) v (u + A / B * v)
        (by omega) hBpos ?_ hsum' (Or.inl hlt) (Or.inr hv) hB' hB''
      rcases hsign with ⟨h1, h2⟩ | ⟨h1, h2⟩
      · right
        refine ⟨h2, ?_⟩
        rw [h1, h2]
        push_cast
        ring
      · left
        refine ⟨h2, ?_⟩
        rw [h1, h2]
        push_cast
        ring

theorem lehmerGCD_cofactor (g n : Nat) (hg : 0 < g) (hn : 0 < n) :
    ((lehmerGCD (g : Int) (n : Int)).1 ≡ (lehmerGCD (g : Int) (n : Int)).2 * (g : Int)
        [ZMOD (n : Int)]) ∧
      -(n : Int) < (lehmerGCD (g : Int) (n : Int)).2 ∧
      (lehmerGCD (g : Int) (n : Int)).2 < (n : Int) := by
  have hgneg : ¬ ((g : Int) < 0) := by omega
  unfold lehmerGCD
  simp only [Int.natAbs_ofNat, if_neg hgneg]
  by_cases hlt : g < n
  · rw [if_pos hlt]
    exact euclidLoop_cofactor g n hn g n g 0 1 0 1 (le_refl _) hn
      (Or.inr ⟨by simp, by simp⟩) (by ring) (Or.inl hlt) (Or.inl hg)
      (by simpa using (Int.modEq_zero_iff_dvd.mpr (dvd_refl (n : Int)))) (by simp)
  · rw [if_neg hlt]
    exact euclidLoop_cofactor g n hn n g n 1 0 1 0 (le_refl _) hg
      (Or.inl ⟨by simp, by simp⟩) (by ring) (Or.inr (by omega)) (Or.inl hn)
      (by simp) (by simpa using (Int.modEq_zero_iff_dvd.mpr (dvd_refl (n : Int))))

theorem bigModInverse_spec (g n : Nat) (hg : 0 < g) (hn : 0 < n) (hcop : Nat.gcd g n = 1) :
    ∃ d : Nat, bigModInverse (g : Int) (n : Int) = some (d : Int) ∧ d < n ∧
      (g : Int) * (d : Int) ≡ 1 [ZMOD (n : Int)] := by
  have hnneg : ¬ ((n : Int) < 0) := by omega
  have hgneg : ¬ ((g : Int) < 0) := by omega
  have hg0 : ¬ ((g : Int) = 0 ∨ (n : Int) = 0) := by omega
  obtain ⟨hcong, hlo, hhi⟩ := lehmerGCD_cofactor g n hg hn
  have hfst : (lehmerGCD (g : Int) (n : Int)).1 = 1 := by
    rw [lehmerGCD_fst]
    simp [Int.gcd, hcop]
  rw [hfst] at hcong
  have hinv : ∀ k : Int, (g : Int) * ((lehmerGCD (g : Int) (n : Int)).2 + k * (n : Int)) ≡ 1
      [ZMOD (n : Int)] := by
    intro k
    have h1 : (g : Int) * ((lehmerGCD (g : Int) (n : Int)).2 + k * (n : Int)) =
        (lehmerGCD (g : Int) (n : Int)).2 * (g : Int) + (n : Int) * ((g : Int) * k) := by ring
    rw [h1]
    exact (Int.modEq_add_fac_self).trans hcong.symm
  unfold bigModInverse
  simp only [if_neg hnneg, hgneg, false_and, if_false]
  unfold bigGCDx
  rw [if_neg hg0]
  simp only [hfst, ne_eq, not_true_eq_false, if_false]
  by_cases hx : (lehmerGCD (g : Int) (n : Int)).2 < 0
  · rw [if_pos hx]
    refine ⟨((lehmerGCD (g : Int) (n : Int)).2 + (n : Int)).toNat, ?_, ?_, ?_⟩
    · rw [Int.toNat_of_nonneg (by omega)]
    · omega
    · rw [Int.toNat_of_nonneg (by omega)]
      simpa using hinv 1
  · rw [if_neg hx]
    refine ⟨((lehmerGCD (g : Int) (n : Int)).2).toNat, ?_, ?_, ?_⟩
    · rw [Int.toNat_of_nonneg (by omega)]
    · omega
    · rw [Int.toNat_of_nonneg (by omega)]
      simpa using hinv 0

/-! ## Modular exponentiation -/

theorem bigExp_natCast (x y m : Nat) :
    bigExp (x : Int) (y : Int) (m : Int) = some ((expNN x y m : Nat) : Int) := by
  have hy : ¬ ((y : Int) < 0) := by omega
  have hx : ¬ ((x : Int) < 0) := by omega
  unfold bigExp
  simp [hy, hx]

theorem two_le_totient (p q : Nat) (hp : p.Prime) (hq : q.Prime) (hne : p ≠ q) :
    2 ≤ (p - 1) * (q - 1) := by
  have hp2 := hp.two_le
  have hq2 := hq.two_le
  have h1 : 1 ≤ p - 1 := by omega
  have h2 : 1 ≤ q - 1 := by omega
  rcases Nat.lt_or_ge p 3 with h | h
  · have : 2 ≤ q - 1 := by omega
    calc 2 ≤ 1 * (q - 1) := by omega
      _ ≤ (p - 1) * (q - 1) := Nat.mul_le_mul_right _ h1
  · have : 2 ≤ p - 1 := by omega
    calc 2 ≤ (p - 1) * 1 := by omega
      _ ≤ (p - 1) * (q - 1) := Nat.mul_le_mul_left _ h2

theorem pow_one_add_mul_modEq (p : Nat) (hp : p.Prime) (k m : Nat) :
    m ^ (1 + k * (p - 1)) ≡ m [MOD p] := by
  haveI : Fact p.Prime := ⟨hp⟩
  rw [← ZMod.natCast_eq_natCast_iff]
  push_cast
  by_cases hm : (m : ZMod p) = 0
  · simp [hm]
  · rw [pow_add, pow_one, mul_comm k, pow_mul, ZMod.pow_card_sub_one_eq_one hm, one_pow,
      mul_one]

theorem pow_mul_modEq_self (p q : Nat) (hp : p.Prime) (hq : q.Prime) (hne : p ≠ q)
    (E D : Nat) (hED : E * D ≡ 1 [MOD (p - 1) * (q - 1)]) (m : Nat) :
    (m ^ E) ^ D ≡ m [MOD p * q] := by
  have hphi : 2 ≤ (p - 1) * (q - 1) := two_le_totient p q hp hq hne
  have hpos : 1 ≤ E * D := by
    rcases Nat.eq_zero_or_pos (E * D) with h | h
    · rw [h] at hED
      have h0 : 0 % ((p - 1) * (q - 1)) = 1 % ((p - 1) * (q - 1)) := hED
      rw [Nat.zero_mod, Nat.mod_eq_of_lt (by omega)] at h0
      omega
    · exact h
  have hdvd : (p - 1) * (q - 1) ∣ E * D - 1 := (Nat.modEq_iff_dvd' hpos).mp hED.symm
  have hdp : p - 1 ∣ E * D - 1 := Dvd.dvd.trans (Dvd.intro _ rfl) hdvd
  have hdq : q - 1 ∣ E * D - 1 := Dvd.dvd.trans (Dvd.intro_left _ rfl) hdvd
  rw [← pow_mul]
  apply (Nat.modEq_and_modEq_iff_modEq_mul ((Nat.coprime_primes hp hq).mpr hne)).mp
  constructor
  · obtain ⟨k, hk⟩ := hdp
    have hEq : E * D = 1 + k * (p - 1) := by
      rw [mul_comm k, ← hk]
      omega
    rw [hEq]
    exact pow_one_add_mul_modEq p hp k m
  · obtain ⟨k, hk⟩ := hdq
    have hEq : E * D = 1 + k * (q - 1) := by
      rw [mul_comm k, ← hk]
      omega
    rw [hEq]
    exact pow_one_add_mul_modEq q hq k m

/-! ## Key derivation from two distinct primes -/

theorem totient_natCast (p q : Nat) (hp : 1 ≤ p) (hq : 1 ≤ q) :
    calculateTotient (p : Int) (q : Int) = (((p - 1) * (q - 1) : Nat) : Int) := by
  unfold calculateTotient
  push_cast [Nat.cast_sub hp, Nat.cast_sub hq]
  ring

theorem findE_natCast (phi : Nat) (hphi : phi ≠ 0) :
    ∃ E : Nat, findE (phi : Int) = some (E : Int) ∧ 3 ≤ E ∧ Nat.gcd E phi = 1 := by
  obtain ⟨e, he⟩ := findE_returns (phi : Int) (by exact_mod_cast hphi)
  have he' := he
  unfold findE at he'
  rw [findELoop_some_iff] at he'
  obtain ⟨i, -, hei, hgi, -⟩ := he'
  refine ⟨3 + 2 * i, ?_, by omega, ?_⟩
  · rw [he, hei]
    push_cast
    rfl
  · have h : ((3 : Int) + 2 * (i : Int)) = ((3 + 2 * i : Nat) : Int) := by push_cast; rfl
    rw [h] at hgi
    simpa [Int.gcd] using hgi

theorem key_derivation (p q : Nat) (hp : p.Prime) (hq : q.Prime) (hne : p ≠ q) :
    ∃ E D : Nat, findE (calculateTotient (p : Int) (q : Int)) = some (E : Int) ∧
      modInverse (E : Int) (calculateTotient (p : Int) (q : Int)) = some (D : Int) ∧
      3 ≤ E ∧ Nat.gcd E ((p - 1) * (q - 1)) = 1 ∧ D < (p - 1) * (q - 1) ∧
      E * D ≡ 1 [MOD (p - 1) * (q - 1)] := by
  have hphi := two_le_totient p q hp hq hne
  rw [totient_natCast p q hp.one_le hq.one_le]
  obtain ⟨E, hE, hE3, hcop⟩ := findE_natCast ((p - 1) * (q - 1)) (by omega)
  obtain ⟨D, hD, hlt, hinv⟩ := bigModInverse_spec E ((p - 1) * (q - 1)) (by omega) (by omega) hcop
  refine ⟨E, D, hE, hD, hE3, hcop, hlt, ?_⟩
  have h : ((E * D : Nat) : Int) ≡ ((1 : Nat) : Int) [ZMOD (((p - 1) * (q - 1) : Nat) : Int)] := by
    push_cast
    push_cast at hinv
    exact hinv
  exact Int.natCast_modEq_iff.mp h

theorem cipher_round_trip (p q : Nat) (hp : p.Prime) (hq : q.Prime) (hne : p ≠ q)
    (E D : Nat) (hED : E * D ≡ 1 [MOD (p - 1) * (q - 1)]) (m : Nat) (hm : m < p * q) :
    ∃ c : Int, encrypt (m : Int) (E : Int) (calculateN (p : Int) (q : Int)) = some c ∧
      decrypt c (D : Int) (calculateN (p : Int) (q : Int)) = some (m : Int) := by
  have hn : calculateN (p : Int) (q : Int) = ((p * q : Nat) : Int) := by
    unfold calculateN
    push_cast
    rfl
  have hpq : p * q ≠ 0 := by omega
  refine ⟨((expNN m E (p * q) : Nat) : Int), ?_, ?_⟩
  · rw [hn]
    exact bigExp_natCast m E (p * q)
  · rw [hn]
    unfold decrypt
    rw [bigExp_natCast]
    congr 2
    unfold expNN
    rw [if_neg hpq, if_neg hpq, ← Nat.pow_mod]
    have h := pow_mul_modEq_self p q hp hq hne E D hED m
    have h' : (m ^ E) ^ D % (p * q) = m % (p * q) := h
    rw [h', Nat.mod_eq_of_lt hm]

theorem mainWith_round_trip (p q : Nat) (hp : p.Prime) (hq : q.Prime) (hne : p ≠ q)
    (msg : List Byte) (hhead : ∀ b ∈ msg.head?, b ≠ (0 : Byte))
    (hlt : messageToBigInt msg < calculateN (p : Int) (q : Int)) :
    mainWith (p : Int) (q : Int) msg = some msg := by
  obtain ⟨E, D, hE, hD, -, -, -, hED⟩ := key_derivation p q hp hq hne
  have hm : setBytes msg < p * q := by
    unfold messageToBigInt calculateN at hlt
    exact_mod_cast hlt
  obtain ⟨c, hc, hdec⟩ := cipher_round_trip p q hp hq hne E D hED (setBytes msg) hm
  have hkeys : generateRsaKeys (p : Int) (q : Int) =
      some ((p : Int), (q : Int), calculateN (p : Int) (q : Int), (E : Int), some (D : Int)) := by
    unfold generateRsaKeys
    simp only [hE, hD]
  unfold mainWith
  simp only [hkeys, messageToBigInt, hc, hdec, bigIntToMessage, Int.natAbs_ofNat]
  rw [natBytes_setBytes msg hhead]

/-! ## Two primes of more than 1024 bits -/

theorem mersenne_1279_prime : (mersenne 1279).Prime :=
  lucas_lehmer_sufficiency _ (by norm_num) (by norm_num)

theorem mersenne_2203_prime : (mersenne 2203).Prime :=
  lucas_lehmer_sufficiency _ (by norm_num) (by norm_num)

theorem mersenne_1279_ne_2203 : mersenne 1279 ≠ mersenne 2203 := by
  unfold mersenne
  norm_num

theorem two_pow_1023_le_mersenne_1279 : 2 ^ 1023 ≤ mersenne 1279 := by
  unfold mersenne
  norm_num

theorem two_pow_1023_le_mersenne_2203 : 2 ^ 1023 ≤ mersenne 2203 := by
  unfold mersenne
  norm_num

/-! ## More on the codec -/

theorem setBytes_natBytes (x : Nat) : setBytes (natBytes x) = x := by
  induction x using Nat.strong_induction_on with
  | _ x ih =>
    by_cases hx : x = 0
    · subst hx
      rw [natBytes_zero]
      rfl
    · rw [natBytes_of_ne_zero x hx, setBytes_append_singleton,
        ih (x / 256) (Nat.div_lt_self (Nat.pos_of_ne_zero hx) (by decide))]
      exact Nat.div_add_mod' x 256

theorem natBytes_head_ne_zero (x : Nat) : ∀ b ∈ (natBytes x).head?, b ≠ (0 : Byte) := by
  induction x using Nat.strong_induction_on with
  | _ x ih =>
    by_cases hx : x = 0
    · subst hx
      rw [natBytes_zero]
      simp
    · rw [natBytes_of_ne_zero x hx]
      by_cases hq : x / 256 = 0
      · rw [hq, natBytes_zero]
        intro b hb
        have hb' : b = ⟨x % 256, Nat.mod_lt x (by decide)⟩ := by simpa using hb.symm
        rw [hb']
        intro h0
        have hv : x % 256 = 0 := congrArg Fin.val h0
        omega
      · have hne : natBytes (x / 256) ≠ [] := by
          rw [natBytes_of_ne_zero _ hq]
          simp
        rw [List.head?_append_of_ne_nil _ hne]
        exact ih (x / 256) (Nat.div_lt_self (Nat.pos_of_ne_zero hx) (by decide))

theorem setBytes_zero_cons (bs : List Byte) : setBytes ((0 : Byte) :: bs) = setBytes bs := by
  rw [setBytes_cons]
  simp

theorem natBytes_setBytes_eq_dropWhile (bs : List Byte) :
    natBytes (setBytes bs) = bs.dropWhile (fun b => decide (b = 0)) := by
  induction bs with
  | nil => simp [setBytes, natBytes_zero]
  | cons b bs ih =>
    by_cases hb : b = 0
    · subst hb
      rw [setBytes_zero_cons, ih]
      simp
    · rw [natBytes_setBytes (b :: bs) (by simpa using hb)]
      simp [hb]

/-! ## The range of the cipher -/

theorem expNN_lt (x y m : Nat) (hm : 0 < m) : expNN x y m < m := by
  unfold expNN
  rw [if_neg (by omega)]
  exact Nat.mod_lt _ hm

theorem expNN_mod (x y m : Nat) : expNN (x % m) y m = expNN x y m := by
  unfold expNN
  by_cases hm : m = 0
  · subst hm
    simp
  · rw [if_neg hm, if_neg hm]
    exact (Nat.pow_mod x y m).symm

theorem expNN_mul (a b y m : Nat) (hm : 0 < m) :
    expNN (a * b % m) y m = expNN a y m * expNN b y m % m := by
  have hm0 : m ≠ 0 := by omega
  rw [expNN_mod]
  unfold expNN
  rw [if_neg hm0, if_neg hm0, if_neg hm0, mul_pow, Nat.mul_mod]

/-! ## Euler's totient -/

theorem eulerTotient_eq (n : Nat) : eulerTotient n = Nat.totient n := by
  unfold eulerTotient
  rw [← Nat.filter_coprime_Ico_eq_totient n 1]
  have hI : Finset.Icc 1 n = Finset.Ico 1 (1 + n) := by
    ext k
    simp only [Finset.mem_Icc, Finset.mem_Ico]
    omega
  rw [hI]
  congr 1
  apply Finset.filter_congr
  intro k _
  rw [Nat.gcd_comm]

theorem eulerTotient_mul_primes (p q : Nat) (hp : p.Prime) (hq : q.Prime) (hne : p ≠ q) :
    eulerTotient (p * q) = (p - 1) * (q - 1) := by
  rw [eulerTotient_eq, Nat.totient_mul ((Nat.coprime_primes hp hq).mpr hne),
    Nat.totient_prime hp, Nat.totient_prime hq]

/-! ## The size of the public exponent -/

theorem even_totient (p q : Nat) (hp : p.Prime) (hq : q.Prime) (hne : p ≠ q) :
    2 ∣ (p - 1) * (q - 1) := by
  rcases hp.eq_two_or_odd with h2 | hodd
  · rcases hq.eq_two_or_odd with h2' | hodd'
    · exact absurd (h2.trans h2'.symm) hne
    · exact Dvd.dvd.mul_left ((Nat.dvd_iff_mod_eq_zero).mpr (by omega)) _
  · exact Dvd.dvd.mul_right ((Nat.dvd_iff_mod_eq_zero).mpr (by omega)) _

theorem findE_lt_of_even (phi : Nat) (h4 : 4 ≤ phi) (heven : 2 ∣ phi) :
    ∃ e : Int, findE (phi : Int) = some e ∧ 1 < e ∧ e < (phi : Int) ∧
      Int.gcd e (phi : Int) = 1 := by
  obtain ⟨e, he⟩ := findE_returns (phi : Int) (by omega)
  have he' := he
  unfold findE at he'
  rw [findELoop_some_iff] at he'
  obtain ⟨i, -, hei, hgi, hmin⟩ := he'
  obtain ⟨k, hk⟩ := heven
  have hpred : Int.gcd (3 + 2 * ((k - 2 : Nat) : Int)) (phi : Int) = 1 := by
    have h1 : (3 : Int) + 2 * ((k - 2 : Nat) : Int) = (phi : Int) - 1 := by omega
    rw [h1]
    apply Int.isCoprime_iff_gcd_eq_one.mp
    exact ⟨-1, 1, by ring⟩
  have hik : i ≤ k - 2 := by
    by_contra hlt
    exact hmin (k - 2) (by omega) hpred
  refine ⟨e, he, by omega, by omega, by rw [hei]; exact hgi⟩

theorem four_le_totient (p q : Nat) (hp : p.Prime) (hq : q.Prime) (hne : p ≠ q)
    (h23 : ¬ (p = 2 ∧ q = 3)) (h32 : ¬ (p = 3 ∧ q = 2)) : 4 ≤ (p - 1) * (q - 1) := by
  have hp2 := hp.two_le
  have hq2 := hq.two_le
  have h4 : ¬ Nat.Prime 4 := by norm_num
  have hp4 : p ≠ 4 := fun h => h4 (h ▸ hp)
  have hq4 : q ≠ 4 := fun h => h4 (h ▸ hq)
  rcases Nat.lt_or_ge p 3 with hlt | hge
  · have hp' : p - 1 = 1 := by omega
    rw [hp', Nat.one_mul]
    omega
  · rcases Nat.lt_or_ge q 3 with hlt' | hge'
    · have hq' : q - 1 = 1 := by omega
      rw [hq', Nat.mul_one]
      omega
    · have h1 : 2 ≤ p - 1 := by omega
      have h2 : 2 ≤ q - 1 := by omega
      calc 4 = 2 * 2 := rfl
        _ ≤ (p - 1) * (q - 1) := Nat.mul_le_mul h1 h2

theorem findE_bounds_of_four_le (p q : Nat) (hp : p.Prime) (hq : q.Prime) (hne : p ≠ q)
    (h4 : 4 ≤ (p - 1) * (q - 1)) :
    ∃ e : Int, findE (calculateTotient (p : Int) (q : Int)) = some e ∧ 1 < e ∧
      e < calculateTotient (p : Int) (q : Int) ∧
      Int.gcd e (calculateTotient (p : Int) (q : Int)) = 1 := by
  rw [totient_natCast p q hp.one_le hq.one_le]
  exact findE_lt_of_even _ h4 (even_totient p q hp hq hne)

theorem findELoop_zero (fuel : Nat) : findELoop 0 fuel 3 = none := by
  cases h : findELoop 0 fuel 3 with
  | none => rfl
  | some e =>
    rw [findELoop_some_iff] at h
    obtain ⟨i, -, -, hgi, -⟩ := h
    have : Int.gcd (3 + 2 * (i : Int)) 0 = (3 + 2 * (i : Int)).natAbs := by simp
    rw [this] at hgi
    omega

/-! ## The claims -/

/-- C1 (RSA round trip): for distinct primes `p`, `q` the key derivation produces
`e = findE(phi)` and `d = modInverse(e, phi)`, and for every integer `m` with
`0 <= m < n` encryption returns a ciphertext whose decryption is `m`. -/
theorem rsa_round_trip (p q : Nat) (hp : p.Prime) (hq : q.Prime) (hne : p ≠ q) :
    ∃ e d : Int, findE (calculateTotient (p : Int) (q : Int)) = some e ∧
      modInverse e (calculateTotient (p : Int) (q : Int)) = some d ∧
      ∀ m : Int, 0 ≤ m → m < calculateN (p : Int) (q : Int) →
        ∃ c : Int, encrypt m e (calculateN (p : Int) (q : Int)) = some c ∧
          decrypt c d (calculateN (p : Int) (q : Int)) = some m := by
  obtain ⟨E, D, hE, hD, -, -, -, hED⟩ := key_derivation p q hp hq hne
  refine ⟨(E : Int), (D : Int), hE, hD, ?_⟩
  intro m hm0 hmn
  lift m to Nat using hm0
  have hm : m < p * q := by
    unfold calculateN at hmn
    exact_mod_cast hmn
  exact cipher_round_trip p q hp hq hne E D hED m hm

/-- Witness of C1 at the textbook primes 61 and 53. -/
theorem rsa_round_trip_witness :
    Nat.Prime 61 ∧ Nat.Prime 53 ∧
    ∃ e d : Int, findE (calculateTotient 61 53) = some e ∧
      modInverse e (calculateTotient 61 53) = some d ∧
      ∀ m : Int, 0 ≤ m → m < calculateN 61 53 →
        ∃ c : Int, encrypt m e (calculateN 61 53) = some c ∧
          decrypt c d (calculateN 61 53) = some m :=
  ⟨by norm_num, by norm_num, rsa_round_trip 61 53 (by norm_num) (by norm_num) (by decide)⟩

/-- C2 (end-to-end message round trip): for distinct primes `p`, `q`, the pipeline of
`main` gives back every message that is empty or starts with a non-zero byte and whose
integer value is below `n`; in particular `main` prints its own message
`"O VALTER O BYTHQIM"` whenever both primes are at least `2^1023`. -/
theorem main_round_trip (p q : Nat) (hp : p.Prime) (hq : q.Prime) (hne : p ≠ q) :
    (∀ msg : List Byte, (msg = [] ∨ ∃ b rest, msg = b :: rest ∧ b ≠ 0) →
        messageToBigInt msg < calculateN (p : Int) (q : Int) →
        mainWith (p : Int) (q : Int) msg = some msg) ∧
      (2 ^ 1023 ≤ p → 2 ^ 1023 ≤ q → main (p : Int) (q : Int) = some mainMessage) := by
  constructor
  · intro msg hmsg hlt
    apply mainWith_round_trip p q hp hq hne msg _ hlt
    rcases hmsg with rfl | ⟨b, rest, rfl, hb⟩
    · simp
    · simpa using hb
  · intro hpbig hqbig
    have hhead : ∀ b ∈ mainMessage.head?, b ≠ (0 : Byte) := by
      intro b hb
      have hb79 : b = 79 := by simpa [mainMessage] using hb.symm
      rw [hb79]
      decide
    apply mainWith_round_trip p q hp hq hne mainMessage hhead
    have h1 : setBytes mainMessage < 256 ^ 18 := setBytes_lt mainMessage
    have h2 : (256 : Nat) ^ 18 ≤ 2 ^ 1023 := by norm_num
    have h3 : p ≤ p * q := Nat.le_mul_of_pos_right p (by omega)
    have h4 : setBytes mainMessage < p * q := by omega
    unfold messageToBigInt calculateN
    exact_mod_cast h4

/-- Witness of C2: with the primes 61 and 53 the one-byte message `A` comes back, and
with the Mersenne primes `2^1279 - 1` and `2^2203 - 1` the program prints its own
message. -/
theorem main_round_trip_witness :
    mainWith 61 53 [65] = some [65] ∧
      main ((mersenne 1279 : Nat) : Int) ((mersenne 2203 : Nat) : Int) = some mainMessage :=
  ⟨(main_round_trip 61 53 (by norm_num) (by norm_num) (by decide)).1 [65]
      (Or.inr ⟨65, [], rfl, by decide⟩) (by decide),
    (main_round_trip (mersenne 1279) (mersenne 2203) mersenne_1279_prime mersenne_2203_prime
      mersenne_1279_ne_2203).2 two_pow_1023_le_mersenne_1279 two_pow_1023_le_mersenne_2203⟩

/-- C3 (modular inverse correctness): for distinct primes `p`, `q` the key derivation
produces `e` and `d` with `(e * d) mod phi = 1`. -/
theorem modInverse_correct (p q : Nat) (hp : p.Prime) (hq : q.Prime) (hne : p ≠ q) :
    ∃ e d : Int, findE (calculateTotient (p : Int) (q : Int)) = some e ∧
      modInverse e (calculateTotient (p : Int) (q : Int)) = some d ∧
      (e * d) % calculateTotient (p : Int) (q : Int) = 1 := by
  obtain ⟨E, D, hE, hD, -, -, -, hED⟩ := key_derivation p q hp hq hne
  refine ⟨(E : Int), (D : Int), hE, hD, ?_⟩
  have hphi := two_le_totient p q hp hq hne
  rw [totient_natCast p q hp.one_le hq.one_le]
  have h : (E * D) % ((p - 1) * (q - 1)) = 1 := by
    have h' : (E * D) % ((p - 1) * (q - 1)) = 1 % ((p - 1) * (q - 1)) := hED
    rw [h', Nat.mod_eq_of_lt (by omega)]
  exact_mod_cast h

/-- Witness of C3 at the primes 61 and 53. -/
theorem modInverse_correct_witness :
    Nat.Prime 61 ∧ Nat.Prime 53 ∧
    ∃ e d : Int, findE (calculateTotient 61 53) = some e ∧
      modInverse e (calculateTotient 61 53) = some d ∧
      (e * d) % calculateTotient 61 53 = 1 :=
  ⟨by norm_num, by norm_num, modInverse_correct 61 53 (by norm_num) (by norm_num) (by decide)⟩

/-- C4 (key validity): whenever `findE` returns `e` for a totient `phi`,
`gcd(e, phi) = 1`. -/
theorem findE_coprime (phi e : Int) (h : findE phi = some e) : Int.gcd e phi = 1 := by
  unfold findE at h
  rw [findELoop_some_iff] at h
  obtain ⟨i, -, he, hgi, -⟩ := h
  rw [he]
  exact hgi

/-- Witness of C4: `findE 3120` returns 7, which is coprime to 3120. -/
theorem findE_coprime_witness : findE 3120 = some 7 ∧ Int.gcd 7 3120 = 1 :=
  ⟨by decide, findE_coprime 3120 7 (by decide)⟩

/-- C5 (smallest odd exponent): for a non-zero `phi`, `findE phi` returns the smallest odd
integer `e >= 3` coprime to `phi`: `e` is odd, `e >= 3`, `gcd(e, phi) = 1`, no odd `k` with
`3 <= k < e` is coprime to `phi`, and when 3 divides `phi` the result is at least 5. -/
theorem findE_smallest_odd_coprime (phi : Int) (hphi : phi ≠ 0) :
    ∃ e : Int, findE phi = some e ∧ e % 2 = 1 ∧ 3 ≤ e ∧ Int.gcd e phi = 1 ∧
      (∀ k : Int, 3 ≤ k → k < e → k % 2 = 1 → Int.gcd k phi ≠ 1) ∧
      ((3 : Int) ∣ phi → 5 ≤ e) := by
  obtain ⟨e, he⟩ := findE_returns phi hphi
  have he' := he
  unfold findE at he'
  rw [findELoop_some_iff] at he'
  obtain ⟨i, -, hei, hgi, hmin⟩ := he'
  have hsmall : ∀ k : Int, 3 ≤ k → k < e → k % 2 = 1 → Int.gcd k phi ≠ 1 := by
    intro k hk3 hke hodd
    have hj : k = 3 + 2 * (((k - 3) / 2).toNat : Int) := by
      rw [Int.toNat_of_nonneg (by omega)]
      omega
    rw [hj]
    apply hmin
    omega
  refine ⟨e, he, by omega, by omega, by rw [hei]; exact hgi, hsmall, ?_⟩
  intro h3
  have hne3 : e ≠ 3 := by
    intro h
    rw [h] at hei
    have hi0 : i = 0 := by omega
    rw [hi0] at hgi
    have hdvd : (3 : Int) ∣ ((Int.gcd (3 + 2 * ((0 : Nat) : Int)) phi : Nat) : Int) :=
      Int.dvd_gcd (by norm_num) h3
    rw [hgi] at hdvd
    norm_num at hdvd
  omega

/-- Witness of C5 at `phi = 3120`, a multiple of 3 and of 5. -/
theorem findE_smallest_odd_coprime_witness :
    (3120 : Int) ≠ 0 ∧
    ∃ e : Int, findE 3120 = some e ∧ e % 2 = 1 ∧ 3 ≤ e ∧ Int.gcd e 3120 = 1 ∧
      (∀ k : Int, 3 ≤ k → k < e → k % 2 = 1 → Int.gcd k 3120 ≠ 1) ∧
      ((3 : Int) ∣ 3120 → 5 ≤ e) :=
  ⟨by decide, findE_smallest_odd_coprime 3120 (by decide)⟩

/-- C6, as the spec states it, fails: with `p = 61`, `q = 53` the totient is 3120 and
`findE 3120` is not 17, so the four equalities of the scenario do not hold together. -/
theorem key_scenario_17_fails :
    ¬ (calculateN 61 53 = 3233 ∧ calculateTotient 61 53 = 3120 ∧ findE 3120 = some 17 ∧
        modInverse 17 3120 = some 2753) := by
  decide

/-- C6, amended: with `p = 61`, `q = 53` the key derivation gives `n = 3233`,
`phi = 3120`, `findE 3120 = 7` and `modInverse 7 3120 = 1783`, so the derived key is
`(n, e, d) = (3233, 7, 1783)`; the inverse of the textbook exponent 17 is still 2753. -/
theorem key_scenario_derived :
    calculateN 61 53 = 3233 ∧ calculateTotient 61 53 = 3120 ∧ findE 3120 = some 7 ∧
      modInverse 7 3120 = some 1783 ∧
      generateRsaKeys 61 53 = some (61, 53, 3233, 7, some 1783) ∧
      modInverse 17 3120 = some 2753 := by
  decide

set_option exponentiation.threshold 4096 in
/-- C7 (concrete cipher scenario): `encrypt(65, 17, 3233) = 2790` and
`decrypt(2790, 2753, 3233) = 65`. -/
theorem cipher_scenario :
    encrypt 65 17 3233 = some 2790 ∧ decrypt 2790 2753 3233 = some 65 := by
  decide

/-- C8 (codec round trip): a non-empty byte sequence whose first byte is non-zero is
given back by `bigIntToMessage` after `messageToBigInt`. -/
theorem codec_round_trip (b : Byte) (rest : List Byte) (hb : b ≠ 0) :
    bigIntToMessage (messageToBigInt (b :: rest)) = b :: rest := by
  unfold bigIntToMessage messageToBigInt
  rw [Int.natAbs_ofNat]
  exact natBytes_setBytes (b :: rest) (by simpa using hb)

/-- Witness of C8 on the three bytes `01 00 00`. -/
theorem codec_round_trip_witness : bigIntToMessage (messageToBigInt [1, 0, 0]) = [1, 0, 0] :=
  codec_round_trip 1 [0, 0] (by decide)

/-- C9 (codec boundary): the empty byte sequence is the integer 0, and the integer 0 is
the empty byte sequence. -/
theorem codec_boundary : messageToBigInt [] = 0 ∧ bigIntToMessage 0 = [] := by
  constructor
  · rfl
  · unfold bigIntToMessage
    exact natBytes_zero

/-- C10 (big-endian value): `messageToBigInt` of the bytes `b_0 ... b_{k-1}` is the sum of
the `b_i * 256^(k-1-i)`, and it lies in `[0, 256^k)`. -/
theorem messageToBigInt_bigEndian (bs : List Byte) :
    messageToBigInt bs = (bigEndianSum bs : Int) ∧ 0 ≤ messageToBigInt bs ∧
      messageToBigInt bs < 256 ^ bs.length := by
  unfold messageToBigInt
  refine ⟨by rw [setBytes_eq_bigEndianSum], Int.natCast_nonneg _, ?_⟩
  exact_mod_cast setBytes_lt bs

/-- C11 (minimal representation): for every integer `x >= 0`, `bigIntToMessage x` read
back by `messageToBigInt` is `x`, and `bigIntToMessage x` is empty or starts with a
non-zero byte. -/
theorem bigIntToMessage_minimal (x : Int) (hx : 0 ≤ x) :
    messageToBigInt (bigIntToMessage x) = x ∧
      (bigIntToMessage x = [] ∨ ∃ b rest, bigIntToMessage x = b :: rest ∧ b ≠ 0) := by
  unfold messageToBigInt bigIntToMessage
  constructor
  · rw [setBytes_natBytes]
    exact Int.natAbs_of_nonneg hx
  · have hhead := natBytes_head_ne_zero x.natAbs
    cases hl : natBytes x.natAbs with
    | nil => exact Or.inl rfl
    | cons b rest =>
      rw [hl] at hhead
      exact Or.inr ⟨b, rest, rfl, hhead b (by simp)⟩

/-- Witness of C11 at `x = 65536`. -/
theorem bigIntToMessage_minimal_witness :
    messageToBigInt (bigIntToMessage 65536) = 65536 ∧
      (bigIntToMessage 65536 = [] ∨ ∃ b rest, bigIntToMessage 65536 = b :: rest ∧ b ≠ 0) :=
  bigIntToMessage_minimal 65536 (by decide)

/-- C12 (ciphertext range): for a modulus `n >= 1`, exponents `e, d >= 0` and a message
`m >= 0`, `encrypt` returns a ciphertext `c` with `0 <= c < n`, and `decrypt` of it
returns a value in `[0, n)` as well. -/
theorem cipher_range (n e d m : Int) (hn : 1 ≤ n) (he : 0 ≤ e) (hd : 0 ≤ d) (hm : 0 ≤ m) :
    ∃ c : Int, encrypt m e n = some c ∧ 0 ≤ c ∧ c < n ∧
      ∃ m' : Int, decrypt c d n = some m' ∧ 0 ≤ m' ∧ m' < n := by
  lift n to Nat using (by omega)
  lift e to Nat using he
  lift d to Nat using hd
  lift m to Nat using hm
  have hn' : 0 < n := by omega
  refine ⟨((expNN m e n : Nat) : Int), bigExp_natCast m e n, Int.natCast_nonneg _,
    by exact_mod_cast expNN_lt m e n hn', ?_⟩
  exact ⟨((expNN (expNN m e n) d n : Nat) : Int), bigExp_natCast _ d n, Int.natCast_nonneg _,
    by exact_mod_cast expNN_lt _ d n hn'⟩

/-- Witness of C12 with the textbook numbers. -/
theorem cipher_range_witness :
    ∃ c : Int, encrypt 65 17 3233 = some c ∧ 0 ≤ c ∧ c < 3233 ∧
      ∃ m' : Int, decrypt c 2753 3233 = some m' ∧ 0 ≤ m' ∧ m' < 3233 :=
  cipher_range 3233 17 2753 65 (by decide) (by decide) (by decide) (by decide)

/-- C13 (totient): for distinct primes `p`, `q`, `calculateN` is `p * q`,
`calculateTotient` is `(p-1) * (q-1)`, and that is Euler's totient of `calculateN(p, q)`,
the number of integers in `[1, n]` coprime to `n`. -/
theorem calculateTotient_eq_eulerTotient (p q : Nat) (hp : p.Prime) (hq : q.Prime)
    (hne : p ≠ q) :
    calculateN (p : Int) (q : Int) = (p : Int) * (q : Int) ∧
      calculateTotient (p : Int) (q : Int) = ((p : Int) - 1) * ((q : Int) - 1) ∧
      calculateTotient (p : Int) (q : Int) =
        (eulerTotient (calculateN (p : Int) (q : Int)).toNat : Int) := by
  refine ⟨rfl, rfl, ?_⟩
  have hn : (calculateN (p : Int) (q : Int)).toNat = p * q := by
    unfold calculateN
    rw [← Nat.cast_mul]
    exact Int.toNat_natCast _
  rw [hn, eulerTotient_mul_primes p q hp hq hne]
  exact totient_natCast p q hp.one_le hq.one_le

/-- Witness of C13 at the primes 61 and 53. -/
theorem calculateTotient_eq_eulerTotient_witness :
    calculateN 61 53 = 61 * 53 ∧ calculateTotient 61 53 = (61 - 1) * (53 - 1) ∧
      calculateTotient 61 53 = (eulerTotient (calculateN 61 53).toNat : Int) :=
  calculateTotient_eq_eulerTotient 61 53 (by norm_num) (by norm_num) (by decide)

/-- C14, as stated, fails at the distinct primes 2 and 3: the totient is 2, `findE`
returns 3, and no value returned by `findE` there lies strictly between 1 and the
totient. -/
theorem findE_exceeds_totient_two :
    Nat.Prime 2 ∧ Nat.Prime 3 ∧ calculateTotient 2 3 = 2 ∧
      findE (calculateTotient 2 3) = some 3 ∧
      ¬ ∃ e : Int, findE (calculateTotient 2 3) = some e ∧ 1 < e ∧
        e < calculateTotient 2 3 ∧ Int.gcd e (calculateTotient 2 3) = 1 := by
  refine ⟨by norm_num, by norm_num, by decide, by decide, ?_⟩
  rintro ⟨e, he, -, hlt, -⟩
  have h3 : findE (calculateTotient 2 3) = some 3 := by decide
  rw [h3] at he
  have he3 : (3 : Int) = e := Option.some.inj he
  have h2 : calculateTotient 2 3 = 2 := by decide
  rw [h2] at hlt
  omega

/-- C14, amended: for two distinct primes `p`, `q` other than the pair 2, 3 (so for any
two distinct odd primes), `findE` returns the public exponent `e` for the totient
`phi = (p-1) * (q-1)`, with `1 < e < phi` and `e` coprime to `phi`. -/
theorem findE_within_totient (p q : Nat) (hp : p.Prime) (hq : q.Prime) (hne : p ≠ q)
    (h23 : ¬ (p = 2 ∧ q = 3)) (h32 : ¬ (p = 3 ∧ q = 2)) :
    ∃ e : Int, findE (calculateTotient (p : Int) (q : Int)) = some e ∧ 1 < e ∧
      e < calculateTotient (p : Int) (q : Int) ∧
      Int.gcd e (calculateTotient (p : Int) (q : Int)) = 1 :=
  findE_bounds_of_four_le p q hp hq hne (four_le_totient p q hp hq hne h23 h32)

/-- Witness of the amended C14 at the primes 61 and 53, where `findE` returns 7. -/
theorem findE_within_totient_witness :
    Nat.Prime 61 ∧ Nat.Prime 53 ∧
    ∃ e : Int, findE (calculateTotient 61 53) = some e ∧ 1 < e ∧
      e < calculateTotient 61 53 ∧ Int.gcd e (calculateTotient 61 53) = 1 :=
  ⟨by norm_num, by norm_num,
    findE_within_totient 61 53 (by norm_num) (by norm_num) (by decide) (by decide)
      (by decide)⟩

/-- C15 (oversized messages): for distinct primes `p`, `q` with the derived keys, every
integer `m >= n` is encrypted without being rejected, to the same ciphertext as
`m mod n`, and decrypting that ciphertext gives `m mod n`, which is not `m`. -/
theorem oversized_message_lost (p q : Nat) (hp : p.Prime) (hq : q.Prime) (hne : p ≠ q) :
    ∃ e d : Int, findE (calculateTotient (p : Int) (q : Int)) = some e ∧
      modInverse e (calculateTotient (p : Int) (q : Int)) = some d ∧
      ∀ m : Int, calculateN (p : Int) (q : Int) ≤ m →
        ∃ c : Int, encrypt m e (calculateN (p : Int) (q : Int)) = some c ∧
          encrypt (m % calculateN (p : Int) (q : Int)) e (calculateN (p : Int) (q : Int)) =
            some c ∧
          decrypt c d (calculateN (p : Int) (q : Int)) =
            some (m % calculateN (p : Int) (q : Int)) ∧
          m % calculateN (p : Int) (q : Int) ≠ m := by
  obtain ⟨E, D, hE, hD, -, -, -, hED⟩ := key_derivation p q hp hq hne
  refine ⟨(E : Int), (D : Int), hE, hD, ?_⟩
  intro m hm
  have hn : calculateN (p : Int) (q : Int) = ((p * q : Nat) : Int) := by
    unfold calculateN
    push_cast
    rfl
  have hpq : 0 < p * q := Nat.mul_pos hp.pos hq.pos
  rw [hn] at hm ⊢
  lift m to Nat using (by omega)
  have hmod : (m : Int) % ((p * q : Nat) : Int) = ((m % (p * q) : Nat) : Int) := by
    push_cast
    rfl
  have hlt : m % (p * q) < p * q := Nat.mod_lt _ hpq
  obtain ⟨c, hc, hdec⟩ := cipher_round_trip p q hp hq hne E D hED (m % (p * q)) hlt
  rw [hn] at hc hdec
  have hc' : encrypt ((m % (p * q) : Nat) : Int) (E : Int) ((p * q : Nat) : Int) =
      some (((expNN m E (p * q) : Nat)) : Int) := by
    unfold encrypt
    rw [bigExp_natCast, expNN_mod]
  have hcc : c = ((expNN m E (p * q) : Nat) : Int) := by
    rw [hc] at hc'
    exact Option.some.inj hc'
  subst hcc
  refine ⟨_, bigExp_natCast m E (p * q), ?_, ?_, ?_⟩
  · rw [hmod]
    exact hc
  · rw [hmod]
    exact hdec
  · rw [hmod]
    have hmn : p * q ≤ m := by exact_mod_cast hm
    omega

/-- Witness of C15 at the primes 61 and 53. -/
theorem oversized_message_lost_witness :
    Nat.Prime 61 ∧ Nat.Prime 53 ∧
    ∃ e d : Int, findE (calculateTotient 61 53) = some e ∧
      modInverse e (calculateTotient 61 53) = some d ∧
      ∀ m : Int, calculateN 61 53 ≤ m →
        ∃ c : Int, encrypt m e (calculateN 61 53) = some c ∧
          encrypt (m % calculateN 61 53) e (calculateN 61 53) = some c ∧
          decrypt c d (calculateN 61 53) = some (m % calculateN 61 53) ∧
          m % calculateN 61 53 ≠ m :=
  ⟨by norm_num, by norm_num,
    oversized_message_lost 61 53 (by norm_num) (by norm_num) (by decide)⟩

/-- C16 (leading zero bytes): for every byte sequence `bs`, decoding the encoded value
gives `bs` without its leading zero bytes; encoding that again gives the same value; and
the bytes differ from `bs` exactly when `bs` starts with a zero byte. -/
theorem leading_zeros_lost (bs : List Byte) :
    bigIntToMessage (messageToBigInt bs) = bs.dropWhile (fun b => decide (b = 0)) ∧
      messageToBigInt (bigIntToMessage (messageToBigInt bs)) = messageToBigInt bs ∧
      (bigIntToMessage (messageToBigInt bs) ≠ bs ↔ ∃ rest, bs = (0 : Byte) :: rest) := by
  have hdec : bigIntToMessage (messageToBigInt bs) = natBytes (setBytes bs) := by
    unfold bigIntToMessage messageToBigInt
    rw [Int.natAbs_ofNat]
  refine ⟨?_, ?_, ?_⟩
  · rw [hdec]
    exact natBytes_setBytes_eq_dropWhile bs
  · rw [hdec]
    unfold messageToBigInt
    rw [setBytes_natBytes]
  · rw [hdec]
    constructor
    · intro hne
      cases bs with
      | nil => exact absurd (by simp [setBytes, natBytes_zero]) hne
      | cons b rest =>
        by_cases hb : b = 0
        · exact ⟨rest, by rw [hb]⟩
        · exact absurd (natBytes_setBytes (b :: rest) (by simpa using hb)) hne
    · rintro ⟨rest, rfl⟩ heq
      have hhead := natBytes_head_ne_zero (setBytes ((0 : Byte) :: rest))
      rw [heq] at hhead
      exact hhead 0 (by simp) rfl

/-- C17 (termination of the exponent search): some number of iterations makes the loop
of `findE` return if and only if `phi != 0`, and then `findE` returns; it returns for
every `phi = (p-1) * (q-1)` with `p`, `q` primes; for `phi = 0` no number of iterations
is enough. -/
theorem findE_terminates_iff :
    (∀ phi : Int, (∃ fuel e, findELoop phi fuel 3 = some e) ↔ phi ≠ 0) ∧
      (∀ phi : Int, (∃ e, findE phi = some e) ↔ phi ≠ 0) ∧
      (∀ p q : Nat, p.Prime → q.Prime →
        ∃ e, findE (calculateTotient (p : Int) (q : Int)) = some e) ∧
      (∀ fuel : Nat, findELoop 0 fuel 3 = none) := by
  have hloop : ∀ phi : Int, (∃ fuel e, findELoop phi fuel 3 = some e) → phi ≠ 0 := by
    rintro phi ⟨fuel, e, h⟩ rfl
    rw [findELoop_zero] at h
    exact Option.noConfusion h
  refine ⟨?_, ?_, ?_, findELoop_zero⟩
  · intro phi
    constructor
    · exact hloop phi
    · intro hphi
      obtain ⟨e, he⟩ := findE_returns phi hphi
      exact ⟨phi.natAbs, e, he⟩
  · intro phi
    constructor
    · rintro ⟨e, he⟩
      exact hloop phi ⟨phi.natAbs, e, he⟩
    · exact findE_returns phi
  · intro p q hp hq
    apply findE_returns
    rw [totient_natCast p q hp.one_le hq.one_le]
    have h1 : 0 < p - 1 := by have := hp.two_le; omega
    have h2 : 0 < q - 1 := by have := hq.two_le; omega
    exact_mod_cast (Nat.mul_pos h1 h2).ne'

/-- C18 (private exponent): for distinct primes `p`, `q`, with `e = findE(phi)`,
`modInverse(e, phi)` does not fail and returns `d` with `0 < d < phi`. -/
theorem modInverse_defined (p q : Nat) (hp : p.Prime) (hq : q.Prime) (hne : p ≠ q) :
    ∃ e d : Int, findE (calculateTotient (p : Int) (q : Int)) = some e ∧
      modInverse e (calculateTotient (p : Int) (q : Int)) = some d ∧
      0 < d ∧ d < calculateTotient (p : Int) (q : Int) := by
  obtain ⟨E, D, hE, hD, -, -, hlt, hED⟩ := key_derivation p q hp hq hne
  have hphi := two_le_totient p q hp hq hne
  have hD0 : D ≠ 0 := by
    rintro rfl
    have h' : (E * 0) % ((p - 1) * (q - 1)) = 1 % ((p - 1) * (q - 1)) := hED
    rw [Nat.mul_zero, Nat.zero_mod, Nat.mod_eq_of_lt (by omega)] at h'
    omega
  refine ⟨(E : Int), (D : Int), hE, hD, by omega, ?_⟩
  rw [totient_natCast p q hp.one_le hq.one_le]
  exact_mod_cast hlt

/-- Witness of C18 at the primes 61 and 53. -/
theorem modInverse_defined_witness :
    Nat.Prime 61 ∧ Nat.Prime 53 ∧
    ∃ e d : Int, findE (calculateTotient 61 53) = some e ∧
      modInverse e (calculateTotient 61 53) = some d ∧
      0 < d ∧ d < calculateTotient 61 53 :=
  ⟨by norm_num, by norm_num, modInverse_defined 61 53 (by norm_num) (by norm_num) (by decide)⟩

/-- C19 (multiplicative homomorphism): for a modulus `n >= 1`, an exponent `e >= 0` and
integers `a, b >= 0`, the ciphertext of `(a * b) mod n` is the product of the ciphertexts
of `a` and `b`, reduced `mod n`. -/
theorem encrypt_multiplicative (n e a b : Int) (hn : 1 ≤ n) (he : 0 ≤ e) (ha : 0 ≤ a)
    (hb : 0 ≤ b) :
    ∃ ca cb : Int, encrypt a e n = some ca ∧ encrypt b e n = some cb ∧
      encrypt ((a * b) % n) e n = some ((ca * cb) % n) := by
  lift n to Nat using (by omega)
  lift e to Nat using he
  lift a to Nat using ha
  lift b to Nat using hb
  have hn' : 0 < n := by omega
  refine ⟨((expNN a e n : Nat) : Int), ((expNN b e n : Nat) : Int), bigExp_natCast a e n,
    bigExp_natCast b e n, ?_⟩
  have h1 : ((a : Int) * (b : Int)) % (n : Int) = ((a * b % n : Nat) : Int) := by
    push_cast
    rfl
  have h2 : ((expNN a e n : Nat) : Int) * ((expNN b e n : Nat) : Int) % (n : Int) =
      ((expNN a e n * expNN b e n % n : Nat) : Int) := by
    push_cast
    rfl
  rw [h1, h2]
  unfold encrypt
  rw [bigExp_natCast, expNN_mul a b e n hn']

/-- Witness of C19: `2 * 3 = 6` under the key `(3233, 17)`. -/
theorem encrypt_multiplicative_witness :
    ∃ ca cb : Int, encrypt 2 17 3233 = some ca ∧ encrypt 3 17 3233 = some cb ∧
      encrypt ((2 * 3) % 3233) 17 3233 = some ((ca * cb) % 3233) :=
  encrypt_multiplicative 3233 17 2 3 (by decide) (by decide) (by decide) (by decide)

end RSAecdc
